import Mathlib

/-!
Verification development for the poker-stat-dashboard log-reconstruction and
prize-allocation core.

The Python sources are shallowly embedded:

* `app/config.py` constants become Lean naturals.
* `app/prize_calculator.py` is embedded over exact rationals: Python float
  arithmetic is modelled by `ℚ`, and Python `round(x, 2)` by round-half-to-even
  on rationals.  At every concrete input used below the two semantics agree
  digit for digit (checked value by value).
* `app/parsers/poker_now_parser.py` works by regex matching over free text.
  Each regex rule is embedded as a constructor of an abstract line type holding
  exactly the data the rule captures; the state-machine logic over those
  matches is translated statement by statement from the source.
* Python `datetime` values are embedded as `ℕ` (with `datetime.min` as `0`)
  and, where `datetime.max` is used as a sort-key fallback, as `WithTop ℕ`.
* Python dicts keyed by rank or hand id are embedded as association lists in
  insertion order; Python sets of names as lists with membership-checked
  insertion; Python `sorted`/`list.sort` (a stable sort) as `List.mergeSort`.
-/

namespace PokerStat

/-! ## Configuration (`app/config.py`) -/

/-- `INITIAL_BUYIN = 20000` from `app/config.py` line 7. -/
def INITIAL_BUYIN : ℕ := 20000

/-- `ENTRY_FEE = 5000` from `app/config.py`. -/
def ENTRY_FEE : ℕ := 5000

/-- `FREE_REBUYS = 2` from `app/config.py`. -/
def FREE_REBUYS : ℕ := 2

/-- `REBUY_FEE = 5000` from `app/config.py`. -/
def REBUY_FEE : ℕ := 5000

/-! ## Prize calculator (`app/prize_calculator.py`) -/

/-- Python `round` to an integer: round half to even, on exact rationals. -/
def roundHalfEven (x : ℚ) : ℤ :=
  if x - ⌊x⌋ < 1/2 then ⌊x⌋
  else if 1/2 < x - ⌊x⌋ then ⌊x⌋ + 1
  else if ⌊x⌋ % 2 = 0 then ⌊x⌋ else ⌊x⌋ + 1

/-- Python `round(x, 2)`: round half to even at two decimal places. -/
def roundTo2 (x : ℚ) : ℚ := (roundHalfEven (x * 100) : ℚ) / 100

/-- Lines 22-33 of `calculate_prize_distribution`: the total prize pool is
`player_count * ENTRY_FEE` plus, per player, the chargeable rebuys beyond the
free limit.  The players data frame enters only through its length and its
`Rebuy Count` column, so it is embedded as the list of rebuy counts. -/
def totalPrizePool (rebuys : List ℕ) : ℕ :=
  rebuys.length * ENTRY_FEE +
    (rebuys.map fun rc =>
      if FREE_REBUYS < rc then (rc - FREE_REBUYS) * REBUY_FEE else 0).sum

/-- Line 52: `common_diff = 200 / (player_count * (player_count - 1))`. -/
def commonDiff (n : ℕ) : ℚ := 200 / (n * (n - 1))

/-- Lines 56-63: the unrounded percentage for a rank (last rank gets 0). -/
def rawPct (n r : ℕ) : ℚ :=
  if r = n then 0 else ((n : ℚ) - r) * commonDiff n

/-- Line 65: `percentages[rank] = round(percentage, 2)`. -/
def roundedPct (n r : ℕ) : ℚ := roundTo2 (rawPct n r)

/-- Line 68: `total_pct = sum(percentages.values())` over ranks `1..n`. -/
def totalPct (n : ℕ) : ℚ :=
  ((List.range' 1 n).map fun r => roundedPct n r).sum

/-- Lines 67-71: the percentage for a rank after the sum adjustment.  The
rank-1 entry is rewritten only when `abs(total_pct - 100) > 0.01`. -/
def adjustedPct (n r : ℕ) : ℚ :=
  if 1/100 < |totalPct n - 100| ∧ r = 1 then
    roundTo2 (roundedPct n 1 + (100 - totalPct n))
  else roundedPct n r

/-- Lines 81-83: `int(exact_prize // 100 * 100)` where
`exact_prize = total_prize_pool * percentage / 100`. -/
def truncPrize (pool : ℕ) (pct : ℚ) : ℤ :=
  ⌊(pool : ℚ) * pct / 100 / 100⌋ * 100

/-- The `prizes` dict of `calculate_prize_distribution`, as an association
list in insertion order: ranks `2..n` first (lines 85-87), then rank 1 set to
the pool minus the truncated total (line 92).  With at most one player the
single entry maps rank 1 to the whole pool (line 98). -/
def prizesFor (rebuys : List ℕ) : List (ℕ × ℤ) :=
  if 1 < rebuys.length then
    (List.range' 2 (rebuys.length - 1)).map
      (fun r => (r, truncPrize (totalPrizePool rebuys) (adjustedPct rebuys.length r)))
    ++ [(1, (totalPrizePool rebuys : ℤ) -
          ((List.range' 2 (rebuys.length - 1)).map
            (fun r => truncPrize (totalPrizePool rebuys) (adjustedPct rebuys.length r))).sum)]
  else [(1, (totalPrizePool rebuys : ℤ))]

/-- The `prize_percentages` dict (line 89), ranks `1..n` in insertion order;
`{1: 100.0}` when there is at most one player (line 98). -/
def prizePctsFor (rebuys : List ℕ) : List (ℕ × ℚ) :=
  if 1 < rebuys.length then
    (List.range' 1 rebuys.length).map fun r => (r, adjustedPct rebuys.length r)
  else [(1, 100)]

/-- `calculate_prize_distribution` (lines 8-98): returns the prize dict, the
percentage dict and the total pool. -/
def calculate_prize_distribution (rebuys : List ℕ) :
    List (ℕ × ℤ) × List (ℕ × ℚ) × ℤ :=
  (prizesFor rebuys, prizePctsFor rebuys, (totalPrizePool rebuys : ℤ))

/-! ## Rebuy reconstruction (`_calculate_rebuy_amount`, parser lines 235-400)

For a fixed player, each log entry is matched against five regex rules
(lines 238-246).  The rules are mutually exclusive on real PokerNow lines,
so an entry is embedded as one constructor carrying the captured data. -/

/-- What one log entry means for one player's rebuy scan:
* `stacksLine a`: a `Player stacks:` broadcast; `a` is the first captured
  stack for this player, `none` when the player is not listed;
* `joined a`: `The player "P @ id" joined the game with a stack of a`;
* `standsUp`: `The player "P @ id" stands up`;
* `sitsBack a`: `The player "P @ id" sits back with the stack of a`;
* `standsSits a`: the direct-rebuy rule `(stand|sit)s with the stack of a`;
* `other`: the entry matches none of the five rules. -/
inductive RebuyLine
| stacksLine (amt : Option ℕ)
| joined (amt : ℕ)
| standsUp
| sitsBack (amt : ℕ)
| standsSits (amt : ℕ)
| other
deriving DecidableEq

/-- The event tags recorded in `stack_history` (timestamps are carried along
in the source but used only for logging, so they are omitted here). -/
inductive StackEvent
| initialJoin
| newJoin
| returnFromAway
| wentAway
| satBack
| stackUpdate
deriving DecidableEq

/-- The loop state of `_calculate_rebuy_amount` (lines 248-260). -/
structure RebuyState where
  first_join : Bool
  away_status : Bool
  initial_buyin : ℕ
  current_stack : ℕ
  last_stack : ℕ
  rebuy_count : ℕ
  total_rebuy : ℕ
  stack_history : List (ℕ × StackEvent)
deriving DecidableEq

/-- Lines 252-260: `first_join = True`, `away_status = False`,
`initial_buyin = 20000` (hard-coded default, equal to `INITIAL_BUYIN`),
stacks and counters zero, empty history. -/
def initRebuyState : RebuyState :=
  ⟨true, false, 20000, 0, 0, 0, 0, []⟩

/-- The body of the entry loop (lines 262-354), one entry at a time. -/
def rebuyStep (s : RebuyState) (l : RebuyLine) : RebuyState :=
  match l with
  | .stacksLine none => s
  | .stacksLine (some new_stack) =>
      let s1 :=
        if 0 < s.current_stack ∧ s.current_stack < new_stack ∧ s.away_status = false then
          if 15000 ≤ new_stack - s.current_stack then
            { s with rebuy_count := s.rebuy_count + 1,
                     total_rebuy := s.total_rebuy + (new_stack - s.current_stack) }
          else s
        else s
      { s1 with last_stack := s1.current_stack, current_stack := new_stack,
                stack_history := s1.stack_history ++ [(new_stack, .stackUpdate)] }
  | .joined amount =>
      if s.first_join then
        { s with initial_buyin := amount, current_stack := amount,
                 last_stack := amount, total_rebuy := amount, first_join := false,
                 stack_history := s.stack_history ++ [(amount, .initialJoin)] }
      else if s.away_status = false then
        { s with rebuy_count := s.rebuy_count + 1,
                 total_rebuy := s.total_rebuy + amount,
                 current_stack := amount, last_stack := amount,
                 stack_history := s.stack_history ++ [(amount, .newJoin)] }
      else
        { s with away_status := false, current_stack := amount, last_stack := amount,
                 stack_history := s.stack_history ++ [(amount, .returnFromAway)] }
  | .standsUp =>
      { s with away_status := true,
               stack_history := s.stack_history ++ [(s.current_stack, .wentAway)] }
  | .sitsBack amount =>
      let s1 :=
        if s.last_stack + 15000 < amount then
          { s with rebuy_count := s.rebuy_count + 1,
                   total_rebuy := s.total_rebuy + (amount - s.last_stack) }
        else s
      { s1 with away_status := false, current_stack := amount,
                stack_history := s1.stack_history ++ [(amount, .satBack)] }
  | .standsSits amount =>
      let s1 :=
        if s.current_stack + 15000 < amount then
          { s with rebuy_count := s.rebuy_count + 1,
                   total_rebuy := s.total_rebuy + (amount - s.current_stack) }
        else s
      { s1 with current_stack := amount }
  | .other => s

/-- Lines 365-371: count consecutive history pairs whose stack difference is
within 1000 of the initial buy-in, over the events `New join`, `Sat back` and
`Stack update`. -/
def exactRebuyCount (hist : List (ℕ × StackEvent)) (buyin : ℕ) : ℕ :=
  ((hist.zip hist.tail).filter fun pc =>
      decide (pc.2.2 = .newJoin ∨ pc.2.2 = .satBack ∨ pc.2.2 = .stackUpdate) &&
      decide (|(pc.2.1 : ℤ) - (pc.1.1 : ℤ) - (buyin : ℤ)| < 1000)).length

/-- Lines 356-383: the anomaly correction applied when more than 2 rebuys
were detected.  Returns the pair `(total_rebuy, rebuy_count)`. -/
def rebuyCorrection (s : RebuyState) : ℕ × ℕ :=
  if 2 < s.rebuy_count then
    let exact := exactRebuyCount s.stack_history s.initial_buyin
    if 0 < exact ∧ exact < s.rebuy_count then
      (s.initial_buyin + exact * s.initial_buyin, exact)
    else if 2 < s.rebuy_count then
      (s.initial_buyin + 1 * s.initial_buyin, 1)
    else (s.total_rebuy, s.rebuy_count)
  else (s.total_rebuy, s.rebuy_count)

/-- `_calculate_rebuy_amount` for one player: fold the entry loop over the
chronologically sorted entries, then apply the correction.  The source
returns only `total_rebuy`; the internal `rebuy_count` is exposed as the
second component so that statements about it can be made. -/
def calculate_rebuy_amount (lines : List RebuyLine) : ℕ × ℕ :=
  rebuyCorrection (lines.foldl rebuyStep initRebuyState)

/-! ## Ranking (`_calculate_rankings`, parser lines 431-463)

`self.player_names` is a Python set; the engine iterates over it in whatever
order the runtime produces.  That iteration order is made explicit here as a
list of distinct names.  The per-player stats the ranking reads are
`total_chip` (a parsed, hence non-negative, chip count), `total_income`
(chips minus rebuy total, so possibly negative) and `out_time`.  Python
`datetime` values are embedded as `ℕ`; `datetime.max`, used only as the sort
fallback for a missing `out_time`, is `⊤` in `WithTop ℕ`. -/

/-- The fields of `self.player_stats[p]` consumed by `_calculate_rankings`. -/
structure PStat where
  total_chip : ℕ
  total_income : ℤ
  out_time : Option ℕ
deriving DecidableEq

/-- Line 443's sort key: `out_time or datetime.max`. -/
def outKey (s : PStat) : WithTop ℕ :=
  match s.out_time with
  | some t => (t : WithTop ℕ)
  | none => ⊤

/-- Lines 435-436: players whose final chips are 0. -/
def eliminatedOf (players : List String) (st : String → PStat) : List String :=
  players.filter fun p => (st p).total_chip == 0

/-- Lines 439-440: players not in the eliminated list with positive chips. -/
def activeOf (players : List String) (st : String → PStat) : List String :=
  players.filter fun p =>
    !(eliminatedOf players st).contains p && decide (0 < (st p).total_chip)

/-- Line 443: eliminated players sorted by `out_time or datetime.max`
ascending; Python list sort is stable, as is `List.mergeSort`. -/
def elimSorted (players : List String) (st : String → PStat) : List String :=
  (eliminatedOf players st).mergeSort fun p q =>
    decide (outKey (st p) ≤ outKey (st q))

/-- Line 447: active players sorted by income descending (stable). -/
def activeSorted (players : List String) (st : String → PStat) : List String :=
  (activeOf players st).mergeSort fun p q =>
    decide ((st q).total_income ≤ (st p).total_income)

/-- Lines 450-463: ranks 1.. are assigned along the active players first,
then the eliminated players.  This list is the players in rank order. -/
def rankedOrder (players : List String) (st : String → PStat) : List String :=
  activeSorted players st ++ elimSorted players st

/-- The rank assigned to a player: its 1-based position in `rankedOrder`. -/
def rankOf (players : List String) (st : String → PStat) (p : String) : ℕ :=
  (rankedOrder players st).indexOf p + 1

/-! ## Log ingestion (`_sort_data_by_time`, parser lines 62-76)

A raw record carries the free-text entry, the timestamp column and the
`order` column.  What `datetime.fromisoformat(ts.rstrip('Z'))` does to the
timestamp string is abstracted into three cases: the string is the literal
header label `at` (skipped at line 67), it parses to some instant, or it
raises `ValueError`.  Instants are embedded as `ℕ` with `datetime.min` as
`0`. -/

/-- The timestamp column of one raw record, by how line 69 handles it. -/
inductive TsField
| atLabel
| parses (t : ℕ)
| malformed
deriving DecidableEq

/-- One row of the uploaded CSV as read by `_read_log_file`. -/
structure RawRecord where
  entry : String
  ts : TsField
  order : ℕ
deriving DecidableEq

/-- Lines 66-72: the `datetime` key attached to a record.  A record whose
timestamp column is the header label gets no key; a malformed timestamp is
assigned `datetime.min` (here `0`) instead of raising. -/
def assignedDatetime (e : RawRecord) : Option ℕ :=
  match e.ts with
  | .atLabel => none
  | .parses t => some t
  | .malformed => some 0

/-- Line 75's sort key: `x.get('datetime', datetime.min)`. -/
def sortKey (e : RawRecord) : ℕ := (assignedDatetime e).getD 0

/-- Line 75: `sorted(self.game_data, key=...)`.  Python `sorted` is a
stable sort keyed only on the timestamp, embedded as `List.mergeSort`. -/
def sortDataByTime (l : List RawRecord) : List RawRecord :=
  l.mergeSort fun a b => decide (sortKey a ≤ sortKey b)

/-- Modelled from the spec's words for comparison with the source: the
claimed output order is ascending by the pair (parsed timestamp, original
sequence index), ties in timestamp broken by the record's `order` field. -/
def specOrderedByTimeAndIndex (l : List RawRecord) : Prop :=
  l.Pairwise fun a b =>
    sortKey a < sortKey b ∨ (sortKey a = sortKey b ∧ a.order ≤ b.order)

/-! ## Hand tracking (`_process_hands`, parser lines 109-155)

For one entry the loop consults three independent regex matches: the
hand-start marker, and per player the identity pattern and the
pot-collection pattern.  They are embedded as fields of an abstract entry;
since the pot-collection regex strictly contains the identity pattern, and
a hand-start line may also name a player (the dealer), the fields are
independent, matching the source's independent checks. -/

/-- What `_process_hands` can see in one log entry. -/
structure HandEntry where
  handStart : Option (ℕ × String)
  mentioned : String → Bool
  collect : String → Option ℕ

/-- One record of `self.hand_data` (line 126): hand number, participants,
winners, pot amounts.  Python sets are embedded as lists with
membership-checked insertion, so set membership is preserved. -/
structure HandRec where
  number : ℕ
  players_involved : List String
  winners : List String
  pot_amounts : List ℕ
deriving DecidableEq

/-- Python `set.add`: append the element unless already present. -/
def insertNew (a : String) (l : List String) : List String :=
  if a ∈ l then l else l ++ [a]

/-- The loop state of `_process_hands`: the current hand id, the hand dict
in insertion order, and the running maximum hand number. -/
structure HandsState where
  current : Option String
  hands : List (String × HandRec)
  total_hands : ℕ

/-- Python dict assignment `d[k] = v`: overwrite the entry if the key is
present, otherwise append it. -/
def dictInsert (k : String) (v : HandRec) (d : List (String × HandRec)) :
    List (String × HandRec) :=
  if d.any (fun kv => kv.1 == k) then
    d.map fun kv => if kv.1 == k then (k, v) else kv
  else d ++ [(k, v)]

/-- Update the record stored under a key. -/
def updateHand (k : String) (f : HandRec → HandRec)
    (d : List (String × HandRec)) : List (String × HandRec) :=
  d.map fun kv => if kv.1 == k then (kv.1, f kv.2) else kv

/-- Lines 140-155 for a single player: a mention adds the player to the
participants; a pot-collection match additionally adds the player to the
winners and appends the amount. -/
def stepPlayer (e : HandEntry) (p : String) (h : HandRec) : HandRec :=
  if e.mentioned p then
    match e.collect p with
    | some amt =>
        { h with players_involved := insertNew p h.players_involved,
                 winners := insertNew p h.winners,
                 pot_amounts := h.pot_amounts ++ [amt] }
    | none => { h with players_involved := insertNew p h.players_involved }
  else h

/-- Lines 121-135: a hand-start marker opens a (possibly overwriting) fresh
hand record and bumps the running total only upward. -/
def handStartStep (st : HandsState) (e : HandEntry) : HandsState :=
  match e.handStart with
  | some (num, hid) =>
      { current := some hid,
        hands := dictInsert hid ⟨num, [], [], []⟩ st.hands,
        total_hands := if st.total_hands < num then num else st.total_hands }
  | none => st

/-- Lines 117-155: process one entry (hand start first, then the per-player
scan over `player_ids` when a current hand exists in the dict). -/
def processEntry (players : List String) (st : HandsState) (e : HandEntry) :
    HandsState :=
  let st1 := handStartStep st e
  match st1.current with
  | some hid =>
      if st1.hands.any (fun kv => kv.1 == hid) then
        { st1 with hands :=
            players.foldl (fun d p => updateHand hid (stepPlayer e p) d) st1.hands }
      else st1
  | none => st1

/-- `_process_hands`: fold over the chronologically sorted entries starting
from no current hand, no hands, zero total. -/
def processHands (players : List String) (entries : List HandEntry) :
    HandsState :=
  entries.foldl (processEntry players) ⟨none, [], 0⟩

/-- The C10 invariant: every hand's winner set is a subset of its
participant set. -/
def WinnersSubset (st : HandsState) : Prop :=
  ∀ kv ∈ st.hands, ∀ w ∈ kv.2.winners, w ∈ kv.2.players_involved

end PokerStat

namespace PokerStat

/-! ## Theorems on the prize calculator -/

/-- C1: for every input with at least one player, the prize amounts summed
over all ranks equal the computed total prize pool exactly: rank 1 receives
the pool minus the truncated amounts of ranks `2..N`, and a single player
receives the entire pool. -/
theorem prize_amounts_sum_eq_pool (rebuys : List ℕ) (h : rebuys ≠ []) :
    ((calculate_prize_distribution rebuys).1.map (fun kv => kv.2)).sum
      = (totalPrizePool rebuys : ℤ) := by
  clear h
  unfold calculate_prize_distribution prizesFor
  by_cases h1 : 1 < rebuys.length
  · simp only [if_pos h1, List.map_append, List.sum_append, List.map_map]
    simp only [Function.comp_def, List.map_cons, List.map_nil, List.sum_cons,
      List.sum_nil, add_zero]
    ring
  · simp [if_neg h1]

/-- Witness for C1 at the one-player input `[0]`. -/
theorem prize_amounts_sum_eq_pool_witness :
    ((calculate_prize_distribution [0]).1.map (fun kv => kv.2)).sum
      = (totalPrizePool [0] : ℤ) :=
  prize_amounts_sum_eq_pool [0] (by decide)

/-- Evaluation of `roundedPct 14 1` (rank 1 of 14 players). -/
theorem roundedPct_14_1 : roundedPct 14 1 = 1429/100 := by
  norm_num [roundedPct, rawPct, commonDiff, roundTo2, roundHalfEven, Int.fract]

/-- Evaluation of `roundedPct 14 2`. -/
theorem roundedPct_14_2 : roundedPct 14 2 = 1319/100 := by
  norm_num [roundedPct, rawPct, commonDiff, roundTo2, roundHalfEven, Int.fract]

/-- Evaluation of `roundedPct 14 3`. -/
theorem roundedPct_14_3 : roundedPct 14 3 = 1209/100 := by
  norm_num [roundedPct, rawPct, commonDiff, roundTo2, roundHalfEven, Int.fract]

/-- Evaluation of `roundedPct 14 4`. -/
theorem roundedPct_14_4 : roundedPct 14 4 = 1099/100 := by
  norm_num [roundedPct, rawPct, commonDiff, roundTo2, roundHalfEven, Int.fract]

/-- Evaluation of `roundedPct 14 5`. -/
theorem roundedPct_14_5 : roundedPct 14 5 = 989/100 := by
  norm_num [roundedPct, rawPct, commonDiff, roundTo2, roundHalfEven, Int.fract]

/-- Evaluation of `roundedPct 14 6`. -/
theorem roundedPct_14_6 : roundedPct 14 6 = 879/100 := by
  norm_num [roundedPct, rawPct, commonDiff, roundTo2, roundHalfEven, Int.fract]

/-- Evaluation of `roundedPct 14 7`. -/
theorem roundedPct_14_7 : roundedPct 14 7 = 769/100 := by
  norm_num [roundedPct, rawPct, commonDiff, roundTo2, roundHalfEven, Int.fract]

/-- Evaluation of `roundedPct 14 8`. -/
theorem roundedPct_14_8 : roundedPct 14 8 = 659/100 := by
  norm_num [roundedPct, rawPct, commonDiff, roundTo2, roundHalfEven, Int.fract]

/-- Evaluation of `roundedPct 14 9`. -/
theorem roundedPct_14_9 : roundedPct 14 9 = 549/100 := by
  norm_num [roundedPct, rawPct, commonDiff, roundTo2, roundHalfEven, Int.fract]

/-- Evaluation of `roundedPct 14 10`. -/
theorem roundedPct_14_10 : roundedPct 14 10 = 440/100 := by
  norm_num [roundedPct, rawPct, commonDiff, roundTo2, roundHalfEven, Int.fract]

/-- Evaluation of `roundedPct 14 11`. -/
theorem roundedPct_14_11 : roundedPct 14 11 = 330/100 := by
  norm_num [roundedPct, rawPct, commonDiff, roundTo2, roundHalfEven, Int.fract]

/-- Evaluation of `roundedPct 14 12`. -/
theorem roundedPct_14_12 : roundedPct 14 12 = 220/100 := by
  norm_num [roundedPct, rawPct, commonDiff, roundTo2, roundHalfEven, Int.fract]

/-- Evaluation of `roundedPct 14 13`. -/
theorem roundedPct_14_13 : roundedPct 14 13 = 110/100 := by
  norm_num [roundedPct, rawPct, commonDiff, roundTo2, roundHalfEven, Int.fract]

/-- Evaluation of `roundedPct 14 14` (last rank is fixed at 0). -/
theorem roundedPct_14_14 : roundedPct 14 14 = 0 := by
  norm_num [roundedPct, rawPct, roundTo2, roundHalfEven, Int.fract]

/-- With 14 players the rounded percentages sum to 100.01, not 100. -/
theorem totalPct_14 : totalPct 14 = 10001/100 := by
  have h : List.range' 1 14 = [1,2,3,4,5,6,7,8,9,10,11,12,13,14] := by decide
  rw [totalPct, h]
  simp only [List.map_cons, List.map_nil, List.sum_cons, List.sum_nil,
    roundedPct_14_1, roundedPct_14_2, roundedPct_14_3, roundedPct_14_4,
    roundedPct_14_5, roundedPct_14_6, roundedPct_14_7, roundedPct_14_8,
    roundedPct_14_9, roundedPct_14_10, roundedPct_14_11, roundedPct_14_12,
    roundedPct_14_13, roundedPct_14_14]
  norm_num

/-- With 14 players the adjustment at lines 67-71 does not fire: the rounded
total is off by exactly 0.01, and the trigger requires an error strictly
greater than 0.01. -/
theorem adjustedPct_14 (r : ℕ) : adjustedPct 14 r = roundedPct 14 r := by
  rw [adjustedPct, totalPct_14, if_neg]
  rintro ⟨h1, -⟩
  rw [show |(10001 : ℚ)/100 - 100| = 1/100 by rw [abs_of_nonneg] <;> norm_num] at h1
  exact lt_irrefl _ h1

/-- C4: the claim says the prize percentages sum to exactly 100.00 for every
player count; at 14 players the percentages returned by
`calculate_prize_distribution` sum to 100.01.  The adjustment meant (per the
source's own comment) to "ensure sum is exactly 100%" only fires when the
rounded total differs from 100 by strictly more than 0.01, so a residual of
exactly 0.01 survives to the output. -/
theorem prize_pcts_sum_at_14_players :
    ((calculate_prize_distribution (List.replicate 14 0)).2.1.map
      (fun kv => kv.2)).sum = 10001/100 ∧ (10001/100 : ℚ) ≠ 100 := by
  constructor
  · have hlen : (List.replicate 14 (0 : ℕ)).length = 14 := by decide
    have h14 : List.range' 1 14 = [1,2,3,4,5,6,7,8,9,10,11,12,13,14] := by decide
    unfold calculate_prize_distribution prizePctsFor
    rw [hlen, if_pos (by norm_num), h14]
    simp only [List.map_cons, List.map_nil, List.sum_cons, List.sum_nil,
      adjustedPct_14, roundedPct_14_1, roundedPct_14_2, roundedPct_14_3,
      roundedPct_14_4, roundedPct_14_5, roundedPct_14_6, roundedPct_14_7,
      roundedPct_14_8, roundedPct_14_9, roundedPct_14_10, roundedPct_14_11,
      roundedPct_14_12, roundedPct_14_13, roundedPct_14_14]
    norm_num
  · norm_num

/-! ## Theorems on the rebuy reconstruction -/

/-- C2 counterexample: a player with 4 stake-approval events, all for the
initial amount 20000, should get `total_rebuy_amount = 20000 * (1 + 3)` and
`rebuy_count = 3` by the claim; the source's anomaly correction (lines
356-383) fires at `rebuy_count > 2`, finds no exact stack pattern, and
conservatively resets the result to `(40000, 1)`. -/
theorem rebuy_correction_breaks_formula :
    calculate_rebuy_amount (List.replicate 4 (RebuyLine.joined 20000)) = (40000, 1) ∧
    ((40000 : ℕ), (1 : ℕ)) ≠ (20000 * (1 + 3), 3) := by
  constructor
  · rfl
  · decide

/-- C2 amended: for a player whose matched events are exactly `k + 1`
stake-approval events with the initial amount (and `k ≤ 2`, so the anomaly
correction does not fire), `total_rebuy_amount = a * (1 + k)` and
`rebuy_count = k`. -/
theorem rebuy_total_from_joins (a k : ℕ) (hk : k ≤ 2) :
    calculate_rebuy_amount (List.replicate (k + 1) (RebuyLine.joined a))
      = (a * (1 + k), k) := by
  interval_cases k <;>
    simp [calculate_rebuy_amount, List.replicate, rebuyStep, initRebuyState,
      rebuyCorrection] <;> ring

/-- Witness for the amended C2 at the spec's scenario: 3 approval events at
initial buy-in 20000 give total 60000 and rebuy count 2. -/
theorem rebuy_total_from_joins_witness :
    calculate_rebuy_amount (List.replicate 3 (RebuyLine.joined 20000))
      = (20000 * (1 + 2), 2) :=
  rebuy_total_from_joins 20000 2 (by decide)

/-- C6 counterexample: a player with zero stake-approval matches (and no
other matched lines) gets `total_rebuy_amount = 0`, not the configured
default initial buy-in 20000: the default only seeds the internal
`initial_buyin` variable and is never added to the returned total. -/
theorem rebuy_zero_matches_returns_zero :
    calculate_rebuy_amount [] = (0, 0) ∧ ((0 : ℕ), (0 : ℕ)) ≠ (INITIAL_BUYIN, 0) := by
  constructor
  · rfl
  · decide

/-- C6 amended: a player none of whose entries match any of the five rebuy
rules gets `rebuy_count = 0` and `total_rebuy_amount = 0`, and the
computation always returns normally (it is a total function). -/
theorem rebuy_no_matches (lines : List RebuyLine)
    (h : ∀ l ∈ lines, l = RebuyLine.other ∨ l = RebuyLine.stacksLine none) :
    calculate_rebuy_amount lines = (0, 0) := by
  suffices hs : lines.foldl rebuyStep initRebuyState = initRebuyState by
    rw [calculate_rebuy_amount, hs]; rfl
  revert h
  induction lines with
  | nil => intro h; rfl
  | cons x xs ih =>
      intro h
      rw [List.foldl_cons]
      rcases h x (by simp) with hx | hx <;> subst hx <;>
        exact ih (fun l hl => h l (by simp [hl]))

/-- Witness for the amended C6 at a one-entry log that matches nothing. -/
theorem rebuy_no_matches_witness :
    calculate_rebuy_amount [RebuyLine.other] = (0, 0) :=
  rebuy_no_matches [RebuyLine.other] (by simp)

/-! ## Theorems on the ranking -/

/-- On members of the roster, the `p not in eliminated_players` test is
redundant: the active filter keeps exactly the players with positive chips. -/
theorem activeOf_eq (players : List String) (st : String → PStat) :
    activeOf players st = players.filter fun p => decide (0 < (st p).total_chip) := by
  refine List.filter_congr fun p hp => ?_
  by_cases hc : 0 < (st p).total_chip
  · have hmem : p ∉ eliminatedOf players st := by
      intro hmem
      rcases List.mem_filter.mp hmem with ⟨-, hz⟩
      rw [beq_iff_eq] at hz
      omega
    simp [List.elem_iff, hmem, hc]
  · simp [hc]

/-- The eliminated filter keeps exactly the players with zero chips. -/
theorem eliminatedOf_eq (players : List String) (st : String → PStat) :
    eliminatedOf players st = players.filter fun p => !decide (0 < (st p).total_chip) := by
  refine List.filter_congr fun p hp => ?_
  by_cases hc : (st p).total_chip = 0 <;> simp [hc, Nat.pos_iff_ne_zero]

/-- Membership in the sorted active list. -/
theorem mem_activeSorted (players : List String) (st : String → PStat) (p : String) :
    p ∈ activeSorted players st ↔ p ∈ players ∧ 0 < (st p).total_chip := by
  rw [activeSorted, List.mem_mergeSort, activeOf_eq, List.mem_filter]
  simp

/-- Membership in the sorted eliminated list. -/
theorem mem_elimSorted (players : List String) (st : String → PStat) (p : String) :
    p ∈ elimSorted players st ↔ p ∈ players ∧ (st p).total_chip = 0 := by
  rw [elimSorted, List.mem_mergeSort, eliminatedOf, List.mem_filter]
  simp

/-- The rank order is a permutation of the iteration order of the roster. -/
theorem rankedOrder_perm (players : List String) (st : String → PStat) :
    (rankedOrder players st).Perm players := by
  rw [rankedOrder]
  refine (((List.mergeSort_perm _ _).append (List.mergeSort_perm _ _)).trans ?_)
  rw [activeOf_eq, eliminatedOf_eq]
  exact List.filter_append_perm _ players

/-- Mapping each element of a duplicate-free list to its own index
enumerates `0, …, length − 1`. -/
theorem map_indexOf_self {α : Type} [DecidableEq α] :
    ∀ l : List α, l.Nodup → (l.map fun a => l.indexOf a) = List.range l.length
  | [], _ => rfl
  | x :: xs, h => by
    have hx : x ∉ xs := (List.nodup_cons.mp h).1
    have hxs : xs.Nodup := (List.nodup_cons.mp h).2
    rw [List.map_cons, List.indexOf_cons_self, List.length_cons,
      List.range_succ_eq_map]
    congr 1
    have hstep : (xs.map fun a => (x :: xs).indexOf a)
        = xs.map fun a => (xs.indexOf a).succ :=
      List.map_congr_left fun a ha =>
        List.indexOf_cons_ne xs (fun hax => hx (hax ▸ ha))
    have hsplit : (xs.map fun a => (xs.indexOf a).succ)
        = (xs.map fun a => xs.indexOf a).map Nat.succ := by
      rw [List.map_map]; rfl
    rw [hstep, hsplit, map_indexOf_self xs hxs]

/-- C3: on a duplicate-free non-empty roster the assigned ranks are exactly
the numbers 1..N, each exactly once. -/
theorem ranks_are_permutation (players : List String) (st : String → PStat)
    (h1 : players.Nodup) (h2 : players ≠ []) :
    (players.map fun p => rankOf players st p).Perm
      (List.range' 1 players.length) := by
  clear h2
  have hperm : (rankedOrder players st).Perm players := rankedOrder_perm players st
  have hnodup : (rankedOrder players st).Nodup := hperm.symm.nodup h1
  have key : (rankedOrder players st).map (fun p => rankOf players st p)
      = List.range' 1 players.length := by
    calc (rankedOrder players st).map (fun p => rankOf players st p)
        = ((rankedOrder players st).map
            fun p => (rankedOrder players st).indexOf p).map (fun i => i + 1) := by
          rw [List.map_map]; rfl
      _ = (List.range (rankedOrder players st).length).map (fun i => i + 1) := by
          rw [map_indexOf_self _ hnodup]
      _ = List.range' 1 players.length := by
          rw [hperm.length_eq, List.range'_eq_map_range]
          exact List.map_congr_left fun a _ => by omega
  exact ((hperm.symm).map _).trans (List.Perm.of_eq key)

/-- Witness for C3 with a two-player roster. -/
theorem ranks_are_permutation_witness :
    ((["A", "B"] : List String).map
      fun p => rankOf ["A", "B"] (fun _ => ⟨1, 0, none⟩) p).Perm
      (List.range' 1 (["A", "B"] : List String).length) :=
  ranks_are_permutation ["A", "B"] (fun _ => ⟨1, 0, none⟩) (by decide) (by decide)

/-- The eliminated players come out of the stable sort ordered by the
`out_time or datetime.max` key. -/
theorem sorted_elimSorted (players : List String) (st : String → PStat) :
    (elimSorted players st).Pairwise fun p q => outKey (st p) ≤ outKey (st q) := by
  have hs := @List.sorted_mergeSort String
    (fun p q => decide (outKey (st p) ≤ outKey (st q)))
    (fun a b c hab hbc => by
      rw [decide_eq_true_eq] at *
      exact le_trans hab hbc)
    (fun a b => by
      rcases le_total (outKey (st a)) (outKey (st b)) with h | h <;> simp [h])
    (eliminatedOf players st)
  exact hs.imp fun h => of_decide_eq_true h

/-- The active players come out of the stable sort ordered by income
descending. -/
theorem sorted_activeSorted (players : List String) (st : String → PStat) :
    (activeSorted players st).Pairwise
      fun p q => (st q).total_income ≤ (st p).total_income := by
  have hs := @List.sorted_mergeSort String
    (fun p q => decide ((st q).total_income ≤ (st p).total_income))
    (fun a b c hab hbc => by
      rw [decide_eq_true_eq] at *
      exact le_trans hbc hab)
    (fun a b => by
      rcases le_total ((st a).total_income) ((st b).total_income) with h | h <;> simp [h])
    (activeOf players st)
  exact hs.imp fun h => of_decide_eq_true h

/-- In a list sorted by a key, an element with a strictly smaller key sits
at a strictly smaller index. -/
theorem indexOf_lt_of_key_lt {α β : Type} [DecidableEq α] [LinearOrder β]
    (key : α → β) {l : List α}
    (hs : l.Pairwise fun a b => key a ≤ key b) {p q : α}
    (hp : p ∈ l) (hq : q ∈ l) (hlt : key p < key q) :
    l.indexOf p < l.indexOf q := by
  have hip : l.indexOf p < l.length := List.indexOf_lt_length.mpr hp
  have hiq : l.indexOf q < l.length := List.indexOf_lt_length.mpr hq
  rcases lt_trichotomy (l.indexOf p) (l.indexOf q) with h | h | h
  · exact h
  · exfalso
    have : p = q := (List.indexOf_inj hp hq).mp h
    exact absurd hlt (by rw [this]; exact lt_irrefl _)
  · exfalso
    have := (List.pairwise_iff_getElem.mp hs) _ _ hiq hip h
    rw [List.getElem_indexOf hip, List.getElem_indexOf hiq] at this
    exact absurd hlt (not_lt.mpr this)

/-- C5: an eliminated player (final chips 0) always ranks strictly worse
than every active player (final chips positive); among eliminated players
the ranks follow the elimination-time key ascending, and an eliminated
player with no determinable elimination time ranks after every eliminated
player that has one. -/
theorem eliminated_rank_worse_than_active (players : List String)
    (st : String → PStat) :
    (∀ p ∈ players, ∀ q ∈ players, 0 < (st p).total_chip →
        (st q).total_chip = 0 → rankOf players st p < rankOf players st q) ∧
    (∀ p ∈ players, ∀ q ∈ players, (st p).total_chip = 0 →
        (st q).total_chip = 0 → outKey (st p) < outKey (st q) →
        rankOf players st p < rankOf players st q) ∧
    (∀ p ∈ players, ∀ q ∈ players, (st p).total_chip = 0 →
        (st q).total_chip = 0 → (st p).out_time ≠ none →
        (st q).out_time = none → rankOf players st p < rankOf players st q) := by
  have hmain : ∀ p ∈ players, ∀ q ∈ players, (st p).total_chip = 0 →
      (st q).total_chip = 0 → outKey (st p) < outKey (st q) →
      rankOf players st p < rankOf players st q := by
    intro p hp q hq hcp hcq hlt
    have hpE : p ∈ elimSorted players st := (mem_elimSorted _ _ _).mpr ⟨hp, hcp⟩
    have hqE : q ∈ elimSorted players st := (mem_elimSorted _ _ _).mpr ⟨hq, hcq⟩
    have hpA : p ∉ activeSorted players st := by
      rw [mem_activeSorted]; rintro ⟨-, hpos⟩; omega
    have hqA : q ∉ activeSorted players st := by
      rw [mem_activeSorted]; rintro ⟨-, hpos⟩; omega
    have hidx := indexOf_lt_of_key_lt (fun r => outKey (st r))
      (sorted_elimSorted players st) hpE hqE hlt
    rw [rankOf, rankOf, rankedOrder, List.indexOf_append_of_not_mem hpA,
      List.indexOf_append_of_not_mem hqA]
    omega
  refine ⟨?_, hmain, ?_⟩
  · intro p hp q hq hcp hcq
    have hpA : p ∈ activeSorted players st := (mem_activeSorted _ _ _).mpr ⟨hp, hcp⟩
    have hqA : q ∉ activeSorted players st := by
      rw [mem_activeSorted]; rintro ⟨-, hpos⟩; omega
    have hlt : (activeSorted players st).indexOf p
        < (activeSorted players st).length := List.indexOf_lt_length.mpr hpA
    rw [rankOf, rankOf, rankedOrder, List.indexOf_append_of_mem hpA,
      List.indexOf_append_of_not_mem hqA]
    omega
  · intro p hp q hq hcp hcq hpt hqt
    refine hmain p hp q hq hcp hcq ?_
    rcases ho : (st p).out_time with - | t
    · exact absurd ho hpt
    · rw [outKey, outKey, ho, hqt]
      exact WithTop.coe_lt_top t

/-- Witness for C5: active player A (chips 5) outranks eliminated player B
(chips 0). -/
theorem eliminated_rank_worse_than_active_witness :
    rankOf ["A", "B"] (fun p => if p = "A" then ⟨5, 5, none⟩ else ⟨0, -1, some 3⟩) "A"
      < rankOf ["A", "B"]
        (fun p => if p = "A" then ⟨5, 5, none⟩ else ⟨0, -1, some 3⟩) "B" :=
  (eliminated_rank_worse_than_active ["A", "B"]
    (fun p => if p = "A" then ⟨5, 5, none⟩ else ⟨0, -1, some 3⟩)).1
    "A" (by decide) "B" (by decide) (by decide) (by decide)

/-- C9 counterexample: the ranking is not a function of the input alone.
Two enumerations of the same two-player roster (the same set, as witnessed
by the permutation) with tied incomes produce different rank orders,
because ties are broken by the iteration order of the `player_names` set,
which Python string-hash randomization changes from process to process. -/
theorem ranking_depends_on_iteration_order :
    (["A", "B"] : List String).Perm ["B", "A"] ∧
    rankedOrder ["A", "B"] (fun _ => ⟨1, 0, none⟩)
      ≠ rankedOrder ["B", "A"] (fun _ => ⟨1, 0, none⟩) := by
  refine ⟨List.Perm.swap "B" "A" [], ?_⟩
  have hA : rankedOrder ["A", "B"] (fun _ => ⟨1, 0, none⟩) = ["A", "B"] := by
    unfold rankedOrder activeSorted elimSorted
    rw [show activeOf ["A", "B"] (fun _ => ⟨1, 0, none⟩) = ["A", "B"] from rfl,
      show eliminatedOf ["A", "B"] (fun _ => ⟨1, 0, none⟩) = [] from rfl,
      List.mergeSort_nil, List.mergeSort_of_sorted (by decide), List.append_nil]
  have hB : rankedOrder ["B", "A"] (fun _ => ⟨1, 0, none⟩) = ["B", "A"] := by
    unfold rankedOrder activeSorted elimSorted
    rw [show activeOf ["B", "A"] (fun _ => ⟨1, 0, none⟩) = ["B", "A"] from rfl,
      show eliminatedOf ["B", "A"] (fun _ => ⟨1, 0, none⟩) = [] from rfl,
      List.mergeSort_nil, List.mergeSort_of_sorted (by decide), List.append_nil]
  rw [hA, hB]
  decide

/-- C9 amended: the engine is deterministic given the input and the roster
iteration order; moreover when no two active players have equal income and
no two eliminated players have equal elimination keys, the rank order is
independent of the iteration order. -/
theorem rankedOrder_independent_of_iteration_order
    (e1 e2 : List String) (st : String → PStat)
    (hp : e1.Perm e2) (hnd : e1.Nodup)
    (hinc : ∀ p ∈ e1, ∀ q ∈ e1, p ≠ q → 0 < (st p).total_chip →
        0 < (st q).total_chip → (st p).total_income ≠ (st q).total_income)
    (hout : ∀ p ∈ e1, ∀ q ∈ e1, p ≠ q → (st p).total_chip = 0 →
        (st q).total_chip = 0 → outKey (st p) ≠ outKey (st q)) :
    rankedOrder e1 st = rankedOrder e2 st := by
  have hnd2 : e2.Nodup := hp.nodup hnd
  have hA : activeSorted e1 st = activeSorted e2 st := by
    have hperm : (activeSorted e1 st).Perm (activeSorted e2 st) := by
      have hmid : (activeOf e1 st).Perm (activeOf e2 st) := by
        rw [activeOf_eq, activeOf_eq]
        exact hp.filter _
      exact (List.mergeSort_perm _ _).trans
        (hmid.trans (List.mergeSort_perm _ _).symm)
    have hstrict : ∀ (e : List String), e.Nodup →
        (∀ p ∈ e, ∀ q ∈ e, p ≠ q → 0 < (st p).total_chip →
          0 < (st q).total_chip → (st p).total_income ≠ (st q).total_income) →
        (activeSorted e st).Pairwise
          (fun p q => (st q).total_income < (st p).total_income) := by
      intro e hnde hdist
      have h1 := sorted_activeSorted e st
      have h2 : (activeSorted e st).Nodup := by
        refine (List.mergeSort_perm _ _).symm.nodup ?_
        rw [activeOf_eq]
        exact hnde.filter _
      have h4 : (activeSorted e st).Pairwise
          (fun p q => (st p).total_income ≠ (st q).total_income) := by
        refine List.Pairwise.imp_of_mem ?_ h2
        intro a b ha hb hne
        have haa := (mem_activeSorted e st a).mp ha
        have hbb := (mem_activeSorted e st b).mp hb
        exact hdist a haa.1 b hbb.1 hne haa.2 hbb.2
      exact (h1.and h4).imp fun h => lt_of_le_of_ne h.1 (Ne.symm h.2)
    haveI : IsAntisymm String
        (fun p q => (st q).total_income < (st p).total_income) :=
      ⟨fun a b ha hb => absurd (lt_trans ha hb) (lt_irrefl _)⟩
    exact List.eq_of_perm_of_sorted hperm (hstrict e1 hnd hinc)
      (hstrict e2 hnd2 fun p hp2 q hq2 =>
        hinc p (hp.mem_iff.mpr hp2) q (hp.mem_iff.mpr hq2))
  have hE : elimSorted e1 st = elimSorted e2 st := by
    have hperm : (elimSorted e1 st).Perm (elimSorted e2 st) := by
      have hmid : (eliminatedOf e1 st).Perm (eliminatedOf e2 st) := by
        rw [eliminatedOf, eliminatedOf]
        exact hp.filter _
      exact (List.mergeSort_perm _ _).trans
        (hmid.trans (List.mergeSort_perm _ _).symm)
    have hstrict : ∀ (e : List String), e.Nodup →
        (∀ p ∈ e, ∀ q ∈ e, p ≠ q → (st p).total_chip = 0 →
          (st q).total_chip = 0 → outKey (st p) ≠ outKey (st q)) →
        (elimSorted e st).Pairwise
          (fun p q => outKey (st p) < outKey (st q)) := by
      intro e hnde hdist
      have h1 := sorted_elimSorted e st
      have h2 : (elimSorted e st).Nodup := by
        refine (List.mergeSort_perm _ _).symm.nodup ?_
        rw [eliminatedOf]
        exact hnde.filter _
      have h4 : (elimSorted e st).Pairwise
          (fun p q => outKey (st p) ≠ outKey (st q)) := by
        refine List.Pairwise.imp_of_mem ?_ h2
        intro a b ha hb hne
        have haa := (mem_elimSorted e st a).mp ha
        have hbb := (mem_elimSorted e st b).mp hb
        exact hdist a haa.1 b hbb.1 hne haa.2 hbb.2
      exact (h1.and h4).imp fun h => lt_of_le_of_ne h.1 h.2
    haveI : IsAntisymm String (fun p q => outKey (st p) < outKey (st q)) :=
      ⟨fun a b ha hb => absurd (lt_trans ha hb) (lt_irrefl _)⟩
    exact List.eq_of_perm_of_sorted hperm (hstrict e1 hnd hout)
      (hstrict e2 hnd2 fun p hp2 q hq2 =>
        hout p (hp.mem_iff.mpr hp2) q (hp.mem_iff.mpr hq2))
  rw [rankedOrder, rankedOrder, hA, hE]

/-- Witness for the amended C9: with distinct incomes, the two iteration
orders of the roster give the same rank order. -/
theorem rankedOrder_independent_witness :
    rankedOrder ["A", "B"]
        (fun p => if p = "A" then ⟨10, 5, none⟩ else ⟨20, 7, none⟩)
      = rankedOrder ["B", "A"]
        (fun p => if p = "A" then ⟨10, 5, none⟩ else ⟨20, 7, none⟩) :=
  rankedOrder_independent_of_iteration_order ["A", "B"] ["B", "A"]
    (fun p => if p = "A" then ⟨10, 5, none⟩ else ⟨20, 7, none⟩)
    (List.Perm.swap "B" "A" []) (by decide) (by decide) (by decide)

/-- C8 counterexample: with an empty roster neither the ranking nor the
prize allocation fails; the ranking assigns no ranks, and
`calculate_prize_distribution` returns the rank-1 distribution of the empty
(zero) prize pool instead of refusing to produce one for zero players. -/
theorem empty_roster_returns_results :
    calculate_prize_distribution [] = ([(1, 0)], [(1, 100)], 0) ∧
    rankedOrder [] (fun _ => ⟨0, 0, none⟩) = [] := by
  constructor
  · rfl
  · simp [rankedOrder, activeSorted, elimSorted, activeOf, eliminatedOf]

/-- C8 amended: for an empty roster the engine returns normally: the
ranking assigns no ranks (empty rank order) and the prize allocation falls
into its `player_count <= 1` branch, returning the whole (zero) pool at
rank 1; no distinct fatal error is raised. -/
theorem empty_roster_no_failure (st : String → PStat) :
    rankedOrder [] st = [] ∧
    calculate_prize_distribution [] = ([(1, 0)], [(1, 100)], 0) := by
  constructor
  · simp [rankedOrder, activeSorted, elimSorted, activeOf, eliminatedOf]
  · rfl

/-! ## Theorems on the log ingestion -/

/-- C7 counterexample: two records with equal timestamps but `order` fields
2 then 1 are returned unchanged (the stable sort keys only on the
timestamp), so the output is not ordered by the pair (timestamp, order
field). -/
theorem sort_ignores_order_field :
    sortDataByTime [⟨"x", TsField.parses 5, 2⟩, ⟨"y", TsField.parses 5, 1⟩]
      = [⟨"x", TsField.parses 5, 2⟩, ⟨"y", TsField.parses 5, 1⟩] ∧
    ¬ specOrderedByTimeAndIndex
        [⟨"x", TsField.parses 5, 2⟩, ⟨"y", TsField.parses 5, 1⟩] := by
  constructor
  · exact List.mergeSort_of_sorted (by decide)
  · rw [specOrderedByTimeAndIndex]
    decide

/-- C7 amended: the ingestion stage returns a permutation of its input,
sorted ascending by the parsed timestamp (with the minimum timestamp
substituted for a malformed or header timestamp instead of raising), and
stable: records with equal timestamps keep their input order; the `order`
field is not consulted. -/
theorem sortDataByTime_spec (l : List RawRecord) :
    (sortDataByTime l).Perm l ∧
    (sortDataByTime l).Pairwise (fun a b => sortKey a ≤ sortKey b) ∧
    (∀ k : ℕ, (sortDataByTime l).filter (fun e => sortKey e == k)
        = l.filter (fun e => sortKey e == k)) ∧
    (∀ e : RawRecord, e.ts = TsField.malformed → assignedDatetime e = some 0) := by
  have htrans : ∀ a b c : RawRecord, decide (sortKey a ≤ sortKey b) = true →
      decide (sortKey b ≤ sortKey c) = true →
      decide (sortKey a ≤ sortKey c) = true := by
    intro a b c hab hbc
    rw [decide_eq_true_eq] at *
    omega
  have htotal : ∀ a b : RawRecord,
      (decide (sortKey a ≤ sortKey b) || decide (sortKey b ≤ sortKey a)) = true := by
    intro a b
    rcases Nat.le_total (sortKey a) (sortKey b) with h | h <;> simp [h]
  refine ⟨List.mergeSort_perm l _, ?_, ?_, ?_⟩
  · exact (List.sorted_mergeSort htrans htotal l).imp fun h => of_decide_eq_true h
  · intro k
    have hall : ∀ a ∈ l.filter (fun e => sortKey e == k), sortKey a = k := by
      intro a ha
      have := (List.mem_filter.mp ha).2
      rwa [beq_iff_eq] at this
    have hsub : (l.filter fun e => sortKey e == k).Sublist (sortDataByTime l) := by
      refine List.sublist_mergeSort htrans htotal ?_ (List.filter_sublist l)
      refine List.pairwise_of_forall_mem_list ?_
      intro a ha b hb
      rw [decide_eq_true_eq, hall a ha, hall b hb]
    have hsub2 : (l.filter fun e => sortKey e == k).Sublist
        ((sortDataByTime l).filter fun e => sortKey e == k) := by
      have h1 := List.Sublist.filter (fun e => sortKey e == k) hsub
      rwa [List.filter_eq_self.mpr (fun a ha => by rw [beq_iff_eq]; exact hall a ha)]
        at h1
    have hperm : ((sortDataByTime l).filter fun e => sortKey e == k).Perm
        (l.filter fun e => sortKey e == k) :=
      (List.mergeSort_perm l _).filter _
    exact (hsub2.eq_of_length hperm.symm.length_eq).symm
  · intro e he
    simp [assignedDatetime, he]

/-- Witness for the amended C7: a malformed timestamp is assigned the
minimum timestamp. -/
theorem sortDataByTime_spec_witness :
    assignedDatetime ⟨"x", TsField.malformed, 0⟩ = some 0 :=
  (sortDataByTime_spec []).2.2.2 ⟨"x", TsField.malformed, 0⟩ rfl

/-! ## Theorems on hand tracking -/

/-- `insertNew` contains the inserted element. -/
theorem mem_insertNew_self (a : String) (l : List String) :
    a ∈ insertNew a l := by
  rw [insertNew]
  split
  · assumption
  · simp

/-- `insertNew` keeps old elements. -/
theorem mem_insertNew_of_mem (a : String) {w : String} {l : List String}
    (h : w ∈ l) : w ∈ insertNew a l := by
  rw [insertNew]
  split <;> simp [h]

/-- Elements of `insertNew` are the new one or old ones. -/
theorem mem_of_mem_insertNew {w a : String} {l : List String}
    (h : w ∈ insertNew a l) : w = a ∨ w ∈ l := by
  rw [insertNew] at h
  split at h
  · exact Or.inr h
  · rcases List.mem_append.mp h with h1 | h1
    · exact Or.inr h1
    · exact Or.inl (List.mem_singleton.mp h1)

/-- `stepPlayer` preserves the winners-are-participants property of one
hand record: a winner is only added together with its own mention. -/
theorem stepPlayer_preserves (e : HandEntry) (p : String) (h : HandRec)
    (hws : ∀ w ∈ h.winners, w ∈ h.players_involved) :
    ∀ w ∈ (stepPlayer e p h).winners, w ∈ (stepPlayer e p h).players_involved := by
  rw [stepPlayer]
  split
  · rcases hc : e.collect p with - | amt
    · simpa using fun w hw => mem_insertNew_of_mem p (hws w hw)
    · intro w hw
      simp only at hw ⊢
      rcases mem_of_mem_insertNew hw with h1 | h1
      · rw [h1]; exact mem_insertNew_self p _
      · exact mem_insertNew_of_mem p (hws w h1)
  · exact hws

/-- The per-entry player scan preserves the invariant on the hand dict. -/
theorem foldl_updateHand_preserves (e : HandEntry) (hid : String)
    (players : List String) (d : List (String × HandRec))
    (hd : ∀ kv ∈ d, ∀ w ∈ kv.2.winners, w ∈ kv.2.players_involved) :
    ∀ kv ∈ players.foldl (fun d p => updateHand hid (stepPlayer e p) d) d,
      ∀ w ∈ kv.2.winners, w ∈ kv.2.players_involved := by
  induction players generalizing d with
  | nil => exact hd
  | cons p ps ih =>
      rw [List.foldl_cons]
      refine ih _ ?_
      intro kv hkv
      rw [updateHand] at hkv
      rcases List.mem_map.mp hkv with ⟨kv0, hkv0, hcase⟩
      by_cases hk : (kv0.1 == hid) = true
      · rw [if_pos hk] at hcase
        rw [← hcase]
        exact stepPlayer_preserves e p kv0.2 (hd kv0 hkv0)
      · rw [if_neg hk] at hcase
        rw [← hcase]
        exact hd kv0 hkv0


/-- C10: at every stage of hand processing (every list of processed
entries), each hand's winner set is contained in its participant set: a
player is only recorded as a winner of a hand it participates in. -/
theorem winners_are_participants (players : List String)
    (entries : List HandEntry) : WinnersSubset (processHands players entries) := by
  rw [processHands]
  have hinit : WinnersSubset ⟨none, [], 0⟩ := by
    intro kv hkv
    simp at hkv
  generalize hg : (⟨none, [], 0⟩ : HandsState) = st0 at hinit ⊢
  clear hg
  induction entries generalizing st0 with
  | nil => exact hinit
  | cons e es ih =>
      rw [List.foldl_cons]
      refine ih _ ?_
      rw [processEntry]
      have h1 : WinnersSubset (handStartStep st0 e) := by
        rw [handStartStep]
        rcases e.handStart with - | ⟨num, hid⟩
        · exact hinit
        · intro kv hkv
          simp only at hkv
          rw [dictInsert] at hkv
          split at hkv
          · rcases List.mem_map.mp hkv with ⟨kv0, hkv0, hcase⟩
            by_cases hk : (kv0.1 == hid) = true
            · rw [if_pos hk] at hcase
              rw [← hcase]
              intro w hw
              simp at hw
            · rw [if_neg hk] at hcase
              rw [← hcase]
              exact hinit kv0 hkv0
          · rcases List.mem_append.mp hkv with h2 | h2
            · exact hinit kv h2
            · rw [List.mem_singleton.mp h2]
              intro w hw
              simp at hw
      rcases hcur : (handStartStep st0 e).current with - | hid
      · simpa [hcur] using h1
      · simp only [hcur]
        split
        · intro kv hkv
          exact foldl_updateHand_preserves e hid players _ (fun kv2 h2 => h1 kv2 h2)
            kv hkv
        · exact h1

/-- Witness for C10 at a one-entry log where player A wins the only hand. -/
theorem winners_are_participants_witness :
    "A" ∈ (HandRec.mk 1 ["A"] ["A"] [10]).players_involved :=
  winners_are_participants ["A"]
    [⟨some (1, "h"), fun p => p == "A", fun p => if p == "A" then some 10 else none⟩]
    ("h", ⟨1, ["A"], ["A"], [10]⟩) (by decide) "A" (by decide)

end PokerStat
